import Mathlib

/-!
Shallow embedding of the taleweaver structured-document editor core:
render-tree offset conversion (`DocRenderNode`), layout line-breaking and
pagination (`DocumentView`), cursor command handlers (`cursor.ts`), word and
line boundary search, and the `DocView` child-insertion logic.  Definitions
are translated from the TypeScript source; parts of the tree that are only
reachable through classes absent from the sources (the block/inline render
node children, the layout service) are modelled from the specification and
are marked as such in their doc comments.
-/

namespace Taleweaver

/-- Render node tree.  `DocRenderNode` (src/packages/core/src/render/DocRenderNode.ts)
is a structural node whose children are block render nodes; blocks and inline
nodes are again structural, atomic leaves carry a content length.
Modelled from the spec: the child node classes (BlockRenderNode etc.) are not
among the sources; per the spec a structural node has children and contributes
two delimiters to its model size, an atomic node contributes its content
length to both sizes. -/
inductive RNode where
  | atomic (len : Nat)
  | structural (children : List RNode)

mutual

/- `getSelectableSize`: sum of children's selectable sizes; an atomic leaf
contributes its content length (structural delimiters excluded). -/
def RNode.selectableSize : RNode → Nat
  | .atomic len => len
  | .structural cs => selectableSizeList cs

def selectableSizeList : List RNode → Nat
  | [] => 0
  | c :: cs => c.selectableSize + selectableSizeList cs

end

mutual

/- `getModelSize`: 2 (structural delimiters) plus the sum of children's model
sizes for a structural node; the content length for an atomic leaf. -/
def RNode.modelSize : RNode → Nat
  | .atomic len => len
  | .structural cs => 2 + modelSizeList cs

def modelSizeList : List RNode → Nat
  | [] => 0
  | c :: cs => c.modelSize + modelSizeList cs

end

mutual

/- `convertSelectableOffsetToModelOffset`
(src/packages/core/src/render/DocRenderNode.ts lines 104-117): walk the
children accumulating selectable sizes until the child containing the offset
is found, accumulating model sizes (starting from 1 for the opening
delimiter); descend into that child.  The trailing `throw` is modelled as
`none`.  The atomic-leaf case is modelled from the spec: a leaf's selectable
offsets coincide with its model offsets. -/
def RNode.convert : RNode → Nat → Option Nat
  | .atomic len, s => if s < len then some s else none
  | .structural cs, s => (convertList cs s).map (1 + ·)

def convertList : List RNode → Nat → Option Nat
  | [], _ => none
  | c :: cs, s =>
    if s < c.selectableSize then
      c.convert s
    else
      (convertList cs (s - c.selectableSize)).map (c.modelSize + ·)

end

/-- Document view configuration
(src/src/editor/view/DocumentView.ts lines 25-38). -/
structure DocumentViewConfig where
  pageWidth : Int
  pageHeight : Int
  pagePaddingTop : Int
  pagePaddingBottom : Int
  pagePaddingLeft : Int
  pagePaddingRight : Int

/-- The greedy fill loop shared verbatim by `buildLineViews`
(src/src/editor/view/DocumentView.ts lines 130-145, accumulating box widths
into lines) and `buildPageViews` (lines 171-190, accumulating line heights
into pages): start with the already-open group `cur` whose accumulated
measure is `cum`; for each item, if `cum + item > limit` emit the open group
and start a new one, then append the item and add its measure. -/
def greedyFill (limit : Int) (cur : List Int) (cum : Int) : List Int → List (List Int)
  | [] => [cur]
  | x :: rest =>
    if cum + x > limit then
      cur :: greedyFill limit [x] x rest
    else
      greedyFill limit (cur ++ [x]) (cum + x) rest

/-- `buildLineViews` restricted to the box views of one block
(src/src/editor/view/DocumentView.ts lines 116-147): a fresh line is opened
for the block, then boxes greedily fill lines bounded by the page content
width (pageWidth minus left and right padding). -/
def buildLineViewsBlock (config : DocumentViewConfig) (boxWidths : List Int) : List (List Int) :=
  greedyFill (config.pageWidth - config.pagePaddingLeft - config.pagePaddingRight) [] 0 boxWidths

/-- `buildLineViews` over all blocks: each block's boxes are broken into lines
independently (the block boundary always opens a new line). -/
def buildLineViews (config : DocumentViewConfig) (blocks : List (List Int)) : List (List Int) :=
  (blocks.map (buildLineViewsBlock config)).flatten

/-- `buildPageViews` (src/src/editor/view/DocumentView.ts lines 153-191): one
page is always created up front, then lines greedily fill pages bounded by
the page content height (pageHeight minus top and bottom padding). -/
def buildPageViews (config : DocumentViewConfig) (lineHeights : List Int) : List (List Int) :=
  greedyFill (config.pageHeight - config.pagePaddingTop - config.pagePaddingBottom) [] 0 lineHeights

/-- Editor cursor: `anchor` and `head` are selectable offsets; `leftLock` is
the remembered horizontal position used by vertical navigation. -/
structure Cursor where
  anchor : Int
  head : Int
  leftLock : Int

/-- New caret position computed by `MoveBackwardCommandHandler.handle`
(src/packages/core/src/command/handlers/cursor.ts lines 76-94): a caret
steps one back (without clamping), a range collapses to `min(anchor, head)`. -/
def moveBackwardNewPosition (cursor : Cursor) : Int :=
  if cursor.anchor = cursor.head then cursor.anchor - 1
  else min cursor.anchor cursor.head

/-- New caret position computed by `MoveForwardCommandHandler.handle`
(lines 96-114): a caret steps one forward (without clamping), a range
collapses to `max(anchor, head)`. -/
def moveForwardNewPosition (cursor : Cursor) : Int :=
  if cursor.anchor = cursor.head then cursor.anchor + 1
  else max cursor.anchor cursor.head

/-- New head computed by `MoveHeadBackwardCommandHandler.handle`
(lines 272-285): clamped at 0. -/
def moveHeadBackwardNewHead (cursor : Cursor) : Int :=
  max 0 (cursor.head - 1)

/-- New head computed by `MoveHeadForward.handle` (lines 287-305): clamped at
`contentSize - 1`. -/
def moveHeadForwardNewHead (contentSize : Int) (cursor : Cursor) : Int :=
  min (contentSize - 1) (cursor.head + 1)

/-- A word layout node: the selectable span `size` it covers and its
`trimmedSize` (the span excluding trailing whitespace).
Modelled from the spec: the word layout node class is not among the sources;
a layout node carries the selectable span it covers, and its
previous/next cross-parent siblings are the adjacent entries of the
flattened word sequence. -/
structure WordNode where
  size : Nat
  trimmedSize : Nat
deriving DecidableEq

/-- Cumulative-size search locating the entry containing `position`,
returning its index and the local offset.  Modelled from the spec (§4.4):
`layoutService.describePosition(position).atWord()` searches by cumulative
`size`. -/
def locateWordAux : List WordNode → Nat → Nat → Option (Nat × Nat)
  | [], _, _ => none
  | w :: rest, idx, position =>
    if position < w.size then some (idx, position)
    else locateWordAux rest (idx + 1) (position - w.size)

/-- `layoutService.describePosition(position).atWord()` over the flattened
word sequence of the built layout. -/
def describePositionAtWord (words : List WordNode) (position : Nat) : Option (Nat × Nat) :=
  locateWordAux words 0 position

/-- `atPreviousWord` (src/packages/core/src/command/handlers/cursor.ts lines
26-36): inside a word go to its start; at a word start go to the previous
cross-parent sibling's start, or stay put when there is none. -/
def atPreviousWord (words : List WordNode) (position : Nat) : Option Nat :=
  match describePositionAtWord words position with
  | none => none
  | some (idx, wordPosition) =>
    if wordPosition > 0 then
      some (position - wordPosition)
    else
      match idx with
      | 0 => some position
      | i + 1 =>
        match words[i]? with
        | none => some position
        | some previousWord => some (position - previousWord.size)

/-- `atNextWord` (lines 38-48): before the last offset of a word go to the
word's trimmed end; at the last offset go past the word by `size` plus the
current word's `trimmedSize` when a next cross-parent sibling exists, or
stay put when there is none. -/
def atNextWord (words : List WordNode) (position : Nat) : Option Nat :=
  match describePositionAtWord words position with
  | none => none
  | some (idx, wordPosition) =>
    match words[idx]? with
    | none => none
    | some wordLayoutNode =>
      if wordPosition < wordLayoutNode.size - 1 then
        some (position - wordPosition + wordLayoutNode.trimmedSize)
      else
        match words[idx + 1]? with
        | none => some position
        | some _ =>
          some (position - wordPosition + wordLayoutNode.size + wordLayoutNode.trimmedSize)

/-- A line layout node: the selectable span it covers and
`convertCoordinatesToPosition` restricted to the `(leftLock, 0)` calls the
handlers make.  Modelled from the spec: the line layout node class is not
among the sources; a line knows its span and resolves a horizontal
coordinate to a local offset. -/
structure LineNode where
  size : Nat
  convertCoordinatesToPosition : Int → Nat

/-- Cumulative-size search over lines, as `locateWordAux` but at line
granularity.  Modelled from the spec (§4.4). -/
def locateLineAux : List LineNode → Nat → Nat → Option (Nat × Nat)
  | [], _, _ => none
  | l :: rest, idx, position =>
    if position < l.size then some (idx, position)
    else locateLineAux rest (idx + 1) (position - l.size)

/-- `layoutService.describePosition(position).atLine()` over the flattened
line sequence of the built layout. -/
def describePositionAtLine (lines : List LineNode) (position : Nat) : Option (Nat × Nat) :=
  locateLineAux lines 0 position

/-- `atPreviousLine` (src/packages/core/src/command/handlers/cursor.ts lines
8-15): go to the offset within the previous cross-parent sibling line that
the `leftLock` coordinate resolves to, or to the current line's start when
there is no previous line. -/
def atPreviousLine (lines : List LineNode) (position : Nat) (leftLock : Int) : Option Nat :=
  match describePositionAtLine lines position with
  | none => none
  | some (idx, linePosition) =>
    match idx with
    | 0 => some (position - linePosition)
    | i + 1 =>
      match lines[i]? with
      | none => some (position - linePosition)
      | some previousLine =>
        some (position - linePosition - previousLine.size
          + previousLine.convertCoordinatesToPosition leftLock)

/-- `atNextLine` (lines 17-24): go to the offset within the next
cross-parent sibling line that the `leftLock` coordinate resolves to, or to
the current line's last offset when there is no next line. -/
def atNextLine (lines : List LineNode) (position : Nat) (leftLock : Int) : Option Nat :=
  match describePositionAtLine lines position with
  | none => none
  | some (idx, linePosition) =>
    match lines[idx]? with
    | none => none
    | some lineLayoutNode =>
      match lines[idx + 1]? with
      | none => some (position - linePosition + lineLayoutNode.size - 1)
      | some nextLine =>
        some (position - linePosition + lineLayoutNode.size
          + nextLine.convertCoordinatesToPosition leftLock)

/-- A line view for the `DocumentView` boundary search is the list of its
word views' sizes; a page view is its list of line views.  Modelled from the
spec where the view classes are missing: a view's `getSize()` is the
selectable span it covers, the sum of its children's sizes. -/
abbrev LineV := List Nat

abbrev PageV := List LineV

/-- `lineView.getSize()`. -/
def lineViewSize (l : LineV) : Nat := l.sum

/-- `pageView.getSize()`. -/
def pageViewSize (p : PageV) : Nat := (p.map lineViewSize).sum

/-- `documentElement.getSize()`: the whole selectable span.  Modelled from
the spec: the document covers the union of its pages' spans. -/
def documentSize (ps : List PageV) : Nat := (ps.map pageViewSize).sum

/-- Boundary step of `DocumentView.getWordStartPosition`
(src/src/editor/view/DocumentView.ts lines 408-434): when the query sits
exactly on a word's start boundary, step back by the size of the previous
word of the same line, else the last word of the previous line, else the
last word of the last line of the previous page, else stay. -/
def gwspStepBack (prevPage : Option PageV) (prevLine : Option LineV) (prevWord : Option Nat)
    (currentPosition : Nat) : Nat :=
  match prevWord with
  | some previousWordView => currentPosition - previousWordView
  | none =>
    match prevLine with
    | some previousLineView =>
      match previousLineView.getLast? with
      | some previousWordView => currentPosition - previousWordView
      | none => currentPosition
    | none =>
      match prevPage with
      | some previousPageView =>
        match previousPageView.getLast? with
        | some previousLineView =>
          match previousLineView.getLast? with
          | some previousWordView => currentPosition - previousWordView
          | none => currentPosition
        | none => currentPosition
      | none => currentPosition

/-- Innermost loop of `DocumentView.getWordStartPosition`
(src/src/editor/view/DocumentView.ts lines 400-436): walk the word views of
the entered line; skip words wholly before `position`; on the containing
word apply the boundary step when `position` sits exactly on the word's
start, and return the resulting word start.  `none` means the loop was
exhausted and control falls through to the next line. -/
def gwspWords (prevPage : Option PageV) (prevLine : Option LineV) (prevWord : Option Nat) :
    List Nat → Nat → Nat → Option Nat
  | [], _, _ => none
  | w :: rest, currentPosition, position =>
    if currentPosition + w ≤ position then
      gwspWords prevPage prevLine (some w) rest (currentPosition + w) position
    else if position = currentPosition then
      some (gwspStepBack prevPage prevLine prevWord currentPosition)
    else some currentPosition

/-- Line loop of `DocumentView.getWordStartPosition` (lines 392-437): skip
lines wholly before `position`, descend into the containing line's words;
a word loop that exhausts leaves `currentPosition` advanced by the whole
line and continues with the next line. -/
def gwspLines (prevPage : Option PageV) (prevLine : Option LineV) :
    List LineV → Nat → Nat → Option Nat
  | [], _, _ => none
  | l :: rest, currentPosition, position =>
    if currentPosition + lineViewSize l ≤ position then
      gwspLines prevPage (some l) rest (currentPosition + lineViewSize l) position
    else
      match gwspWords prevPage prevLine none l currentPosition position with
      | some r => some r
      | none => gwspLines prevPage (some l) rest (currentPosition + lineViewSize l) position

/-- Page loop of `DocumentView.getWordStartPosition` (lines 382-440). -/
def gwspPages (prevPage : Option PageV) :
    List PageV → Nat → Nat → Option Nat
  | [], _, _ => none
  | pg :: rest, currentPosition, position =>
    if currentPosition + pageViewSize pg ≤ position then
      gwspPages (some pg) rest (currentPosition + pageViewSize pg) position
    else
      match gwspLines prevPage none pg currentPosition position with
      | some r => some r
      | none => gwspPages (some pg) rest (currentPosition + pageViewSize pg) position

/-- `DocumentView.getWordStartPosition` (lines 382-440); `none` models the
trailing `throw`. -/
def getWordStartPosition (pages : List PageV) (position : Nat) : Option Nat :=
  gwspPages none pages 0 position

/-- Boundary step of `DocumentView.getWordEndPosition`
(src/src/editor/view/DocumentView.ts lines 473-499): when the query sits
exactly on a word's end boundary, step forward by the size of the next word
of the same line, else the first word of the next line, else the first word
of the first line of the next page, else stay. -/
def gwepStepForward (nextPage : Option PageV) (nextLine : Option LineV) (nextWord : Option Nat)
    (currentPosition : Int) : Int :=
  match nextWord with
  | some nextWordView => currentPosition + (nextWordView : Int)
  | none =>
    match nextLine with
    | some nextLineView =>
      match nextLineView.head? with
      | some nextWordView => currentPosition + (nextWordView : Int)
      | none => currentPosition
    | none =>
      match nextPage with
      | some nextPageView =>
        match nextPageView.head? with
        | some nextLineView =>
          match nextLineView.head? with
          | some nextWordView => currentPosition + (nextWordView : Int)
          | none => currentPosition
        | none => currentPosition
      | none => currentPosition

/-- Innermost loop of `DocumentView.getWordEndPosition` (lines 465-501),
walking the word views of the entered line backwards (so it receives the
line's words reversed); on the containing word apply the boundary step when
`position` sits exactly on the word's end boundary. -/
def gwepWords (nextPage : Option PageV) (nextLine : Option LineV) (nextWord : Option Nat) :
    List Nat → Int → Int → Option Int
  | [], _, _ => none
  | w :: rest, currentPosition, position =>
    if currentPosition - (w : Int) ≥ position then
      gwepWords nextPage nextLine (some w) rest (currentPosition - (w : Int)) position
    else if position = currentPosition then
      some (gwepStepForward nextPage nextLine nextWord currentPosition)
    else some currentPosition

/-- Line loop of `DocumentView.getWordEndPosition` (lines 457-502), walking
the page's lines backwards (reversed input). -/
def gwepLines (nextPage : Option PageV) (nextLine : Option LineV) :
    List LineV → Int → Int → Option Int
  | [], _, _ => none
  | l :: rest, currentPosition, position =>
    if currentPosition - (lineViewSize l : Int) ≥ position then
      gwepLines nextPage (some l) rest (currentPosition - (lineViewSize l : Int)) position
    else
      match gwepWords nextPage nextLine none l.reverse currentPosition position with
      | some r => some r
      | none => gwepLines nextPage (some l) rest (currentPosition - (lineViewSize l : Int)) position

/-- Page loop of `DocumentView.getWordEndPosition` (lines 447-505), walking
the pages backwards (reversed input). -/
def gwepPages (nextPage : Option PageV) :
    List PageV → Int → Int → Option Int
  | [], _, _ => none
  | pg :: rest, currentPosition, position =>
    if currentPosition - (pageViewSize pg : Int) ≥ position then
      gwepPages (some pg) rest (currentPosition - (pageViewSize pg : Int)) position
    else
      match gwepLines nextPage none pg.reverse currentPosition position with
      | some r => some r
      | none => gwepPages (some pg) rest (currentPosition - (pageViewSize pg : Int)) position

/-- `DocumentView.getWordEndPosition` (lines 447-505): start from the
document's last offset and walk backwards; `none` models the trailing
`throw`. -/
def getWordEndPosition (pages : List PageV) (position : Int) : Option Int :=
  gwepPages none pages.reverse ((documentSize pages : Int) - 1) position

/-- Page loop of `DocumentView.getScreenPositions`
(src/src/editor/view/DocumentView.ts lines 298-310): walk the pages from the
last, subtracting each size from `currentPosition`; emit the clamped
sub-range for every page overlapping `[from, to]`; return once the page
containing `from` was handled; `none` models the trailing `throw`. -/
def getScreenPositionsLoop (frm toPos : Int) :
    List Int → Int → List (Int × Int) → Option (List (Int × Int))
  | [], _, _ => none
  | sz :: rest, currentPosition, acc =>
    let cp := currentPosition - sz
    let acc2 := if cp ≤ toPos then acc ++ [(max (frm - cp) 0, min (toPos - cp) (sz - 1))] else acc
    if cp ≤ frm then some acc2 else getScreenPositionsLoop frm toPos rest cp acc2

/-- `DocumentView.getScreenPositions` (lines 292-312): throws (here `none`)
when `from` or `to` is at or beyond the document size.  Pages are
represented by their sizes, and each emitted entry records the sub-range
passed to the page view.  Modelled from the spec where the source is silent:
`documentElement.getSize()` equals the sum of the page sizes. -/
def getScreenPositions (pageSizes : List Int) (frm toPos : Int) : Option (List (Int × Int)) :=
  if frm ≥ pageSizes.sum ∨ toPos ≥ pageSizes.sum then none
  else getScreenPositionsLoop frm toPos pageSizes.reverse pageSizes.sum []

/-- A block render node child of `DocRenderNode`, abstracted to the two
measures the parent reads from it. -/
structure BlockRenderChild where
  selectableSize : Nat
  modelSize : Nat
deriving DecidableEq

/-- The mutable state of a `DocRenderNode`
(src/packages/core/src/render/DocRenderNode.ts): its ordered children and
the two memoized size caches (`undefined` is `none`).  The geometry fields
(width/height/padding) play no part in the size invariants and are omitted. -/
structure DocRenderNodeState where
  children : List BlockRenderChild
  selectableSizeCache : Option Nat
  modelSizeCache : Option Nat
deriving DecidableEq

/-- The constructor state (lines 17-24): no children, empty caches. -/
def DocRenderNodeState.init : DocRenderNodeState :=
  ⟨[], none, none⟩

/-- `clearCache`, inherited from `RenderNode`.  Modelled from the spec: the
cached `selectableSize`/`modelSize` are invalidated whenever children or
content change. -/
def DocRenderNodeState.clearCache (st : DocRenderNodeState) : DocRenderNodeState :=
  { st with selectableSizeCache := none, modelSizeCache := none }

/-- `Array.prototype.splice(offset, 0, child)`: insert at `offset`, clamped
to the array length. -/
def spliceInsert (children : List BlockRenderChild) (offset : Nat) (child : BlockRenderChild) :
    List BlockRenderChild :=
  children.take offset ++ [child] ++ children.drop offset

/-- `DocRenderNode.insertChild` (lines 58-66): push when `offset` is null,
splice otherwise; always clear the caches. -/
def DocRenderNodeState.insertChild (st : DocRenderNodeState) (child : BlockRenderChild)
    (offset : Option Nat) : DocRenderNodeState :=
  match offset with
  | none => ({ st with children := st.children ++ [child] }).clearCache
  | some o => ({ st with children := spliceInsert st.children o child }).clearCache

/-- `DocRenderNode.deleteChild` (lines 68-76): throw (`none`) when the child
is not found, else remove its first occurrence and clear the caches. -/
def DocRenderNodeState.deleteChild (st : DocRenderNodeState) (child : BlockRenderChild) :
    Option DocRenderNodeState :=
  if child ∈ st.children then
    some ({ st with children := st.children.erase child }).clearCache
  else
    none

/-- `DocRenderNode.onModelUpdated` (lines 119-125): refresh geometry (not
modelled) and clear the caches. -/
def DocRenderNodeState.onModelUpdated (st : DocRenderNodeState) : DocRenderNodeState :=
  st.clearCache

/-- `DocRenderNode.getSelectableSize` (lines 82-91): return the cache, or
compute the sum of the children's selectable sizes and memoize it. -/
def DocRenderNodeState.getSelectableSize (st : DocRenderNodeState) : Nat × DocRenderNodeState :=
  match st.selectableSizeCache with
  | some v => (v, st)
  | none =>
    let v := (st.children.map (·.selectableSize)).sum
    (v, { st with selectableSizeCache := some v })

/-- `DocRenderNode.getModelSize` (lines 93-102): return the cache, or
compute 2 plus the sum of the children's model sizes and memoize it. -/
def DocRenderNodeState.getModelSize (st : DocRenderNodeState) : Nat × DocRenderNodeState :=
  match st.modelSizeCache with
  | some v => (v, st)
  | none =>
    let v := 2 + (st.children.map (·.modelSize)).sum
    (v, { st with modelSizeCache := some v })

/-- One operation against a `DocRenderNode`. -/
inductive DocRenderNodeOp where
  | insertChild (child : BlockRenderChild) (offset : Option Nat)
  | deleteChild (child : BlockRenderChild)
  | onModelUpdated
  | getSelectableSize
  | getModelSize
deriving DecidableEq

/-- Apply one operation; `none` when it throws. -/
def DocRenderNodeState.applyOp (st : DocRenderNodeState) :
    DocRenderNodeOp → Option DocRenderNodeState
  | .insertChild child offset => some (st.insertChild child offset)
  | .deleteChild child => st.deleteChild child
  | .onModelUpdated => some st.onModelUpdated
  | .getSelectableSize => some st.getSelectableSize.2
  | .getModelSize => some st.getModelSize.2

/-- Apply a sequence of operations, stopping at the first throw. -/
def DocRenderNodeState.applyOps (st : DocRenderNodeState) :
    List DocRenderNodeOp → Option DocRenderNodeState
  | [] => some st
  | op :: ops =>
    match st.applyOp op with
    | none => none
    | some st2 => st2.applyOps ops

/-- The cached sizes, when present, equal the sums the spec prescribes. -/
def DocRenderNodeState.CacheOk (st : DocRenderNodeState) : Prop :=
  (∀ v ∈ st.selectableSizeCache, v = (st.children.map (·.selectableSize)).sum) ∧
  (∀ v ∈ st.modelSizeCache, v = 2 + (st.children.map (·.modelSize)).sum)

/-- The state of a `DocView`
(src/packages/taleweaver-core/src/view/DocView.ts): the internal `children`
list of page views and the DOM container's child list, with page views
represented by identifiers. -/
structure DocViewState where
  children : List Nat
  domChildNodes : List Nat
deriving DecidableEq

/-- `Node.insertBefore(newNode, childNodes[refIdx])`: insert before the
reference node; per the DOM an absent (undefined) reference appends at the
end. -/
def domInsertBefore (dom : List Nat) (node : Nat) (refIdx : Nat) : List Nat :=
  if refIdx < dom.length then dom.take refIdx ++ [node] ++ dom.drop refIdx
  else dom ++ [node]

/-- `Node.appendChild(node)`: append; a node already present is moved to the
end. -/
def domAppendChild (dom : List Nat) (node : Nat) : List Nat :=
  dom.erase node ++ [node]

/-- `DocView.insertChild` (src/packages/taleweaver-core/src/view/DocView.ts
lines 22-34): push the child onto the internal list unconditionally, then
throw (`none`) when `offset` exceeds the DOM child count, else insert the
child's DOM container before `childNodes[offset + 1]` (or append when
`offset` equals the count) and finally append it again.  The source pushes
before the throw check; the state after a throw is not modelled. -/
def DocViewState.insertChild (st : DocViewState) (child : Nat) (offset : Nat) :
    Option DocViewState :=
  let children := st.children ++ [child]
  if offset > st.domChildNodes.length then none
  else if offset = st.domChildNodes.length then
    some ⟨children, domAppendChild (domAppendChild st.domChildNodes child) child⟩
  else
    some ⟨children, domAppendChild (domInsertBefore st.domChildNodes child (offset + 1)) child⟩

/-- `DocView.getChildren` (lines 36-38). -/
def DocViewState.getChildren (st : DocViewState) : List Nat :=
  st.children


theorem selectableSizeList_cons (c : RNode) (cs : List RNode) :
    selectableSizeList (c :: cs) = c.selectableSize + selectableSizeList cs := by
  rw [selectableSizeList]

theorem modelSizeList_cons (c : RNode) (cs : List RNode) :
    modelSizeList (c :: cs) = c.modelSize + modelSizeList cs := by
  rw [modelSizeList]

/- Selectable size never exceeds model size (every node contributes at least
as much to the model scale). -/
mutual

theorem RNode.selectableSize_le_modelSize : ∀ t : RNode, t.selectableSize ≤ t.modelSize
  | .atomic len => le_refl _
  | .structural cs => by
    rw [RNode.selectableSize, RNode.modelSize]
    have h := selectableSizeList_le_modelSizeList cs
    omega

theorem selectableSizeList_le_modelSizeList : ∀ cs : List RNode,
    selectableSizeList cs ≤ modelSizeList cs
  | [] => le_refl _
  | c :: cs => by
    rw [selectableSizeList_cons, modelSizeList_cons]
    have h1 := RNode.selectableSize_le_modelSize c
    have h2 := selectableSizeList_le_modelSizeList cs
    omega

end

/- Totality: in-range selectable offsets always convert. -/
mutual

theorem RNode.convert_total : ∀ (t : RNode) (s : Nat), s < t.selectableSize →
    ∃ m, t.convert s = some m
  | .atomic len, s, h => by
    rw [RNode.selectableSize] at h
    exact ⟨s, by rw [RNode.convert]; simp [h]⟩
  | .structural cs, s, h => by
    rw [RNode.selectableSize] at h
    obtain ⟨m, hm⟩ := convertList_total cs s h
    exact ⟨1 + m, by rw [RNode.convert, hm]; rfl⟩

theorem convertList_total : ∀ (cs : List RNode) (s : Nat), s < selectableSizeList cs →
    ∃ m, convertList cs s = some m
  | [], s, h => by rw [selectableSizeList] at h; omega
  | c :: cs, s, h => by
    rw [selectableSizeList_cons] at h
    rw [convertList]
    by_cases hs : s < c.selectableSize
    · simp only [hs, if_true]
      exact RNode.convert_total c s hs
    · simp only [hs, if_false]
      obtain ⟨m, hm⟩ := convertList_total cs (s - c.selectableSize) (by omega)
      exact ⟨c.modelSize + m, by rw [hm]; rfl⟩

end

/- Range: a converted offset is below the node's model size, and for a
structural node it lies in `[1, modelSize - 1)`. -/
mutual

theorem RNode.convert_lt_modelSize : ∀ (t : RNode) (s m : Nat),
    t.convert s = some m → m < t.modelSize
  | .atomic len, s, m, h => by
    rw [RNode.convert] at h
    rw [RNode.modelSize]
    by_cases hs : s < len
    · simp [hs] at h; omega
    · simp [hs] at h
  | .structural cs, s, m, h => by
    rw [RNode.convert] at h
    rw [RNode.modelSize]
    cases hcl : convertList cs s with
    | none => rw [hcl] at h; simp at h
    | some ml =>
      rw [hcl] at h
      simp only [Option.map_some', Option.some.injEq] at h
      have := convertList_lt_modelSizeList cs s ml hcl
      omega

theorem convertList_lt_modelSizeList : ∀ (cs : List RNode) (s m : Nat),
    convertList cs s = some m → m < modelSizeList cs
  | [], s, m, h => by rw [convertList] at h; simp at h
  | c :: cs, s, m, h => by
    rw [convertList] at h
    rw [modelSizeList_cons]
    by_cases hs : s < c.selectableSize
    · simp only [hs, if_true] at h
      have := RNode.convert_lt_modelSize c s m h
      omega
    · simp only [hs, if_false] at h
      cases hcl : convertList cs (s - c.selectableSize) with
      | none => rw [hcl] at h; simp at h
      | some ml =>
        rw [hcl] at h
        simp only [Option.map_some', Option.some.injEq] at h
        have := convertList_lt_modelSizeList cs (s - c.selectableSize) ml hcl
        omega

end

/- Strict monotonicity of the conversion. -/
mutual

theorem RNode.convert_strictMono : ∀ (t : RNode) (s1 s2 m1 m2 : Nat),
    s1 < s2 → t.convert s1 = some m1 → t.convert s2 = some m2 → m1 < m2
  | .atomic len, s1, s2, m1, m2, hlt, h1, h2 => by
    rw [RNode.convert] at h1 h2
    by_cases hs1 : s1 < len
    · by_cases hs2 : s2 < len
      · simp [hs1] at h1; simp [hs2] at h2; omega
      · simp [hs2] at h2
    · simp [hs1] at h1
  | .structural cs, s1, s2, m1, m2, hlt, h1, h2 => by
    rw [RNode.convert] at h1 h2
    cases hc1 : convertList cs s1 with
    | none => rw [hc1] at h1; simp at h1
    | some n1 =>
      cases hc2 : convertList cs s2 with
      | none => rw [hc2] at h2; simp at h2
      | some n2 =>
        rw [hc1] at h1; rw [hc2] at h2
        simp only [Option.map_some', Option.some.injEq] at h1 h2
        have := convertList_strictMono cs s1 s2 n1 n2 hlt hc1 hc2
        omega

theorem convertList_strictMono : ∀ (cs : List RNode) (s1 s2 m1 m2 : Nat),
    s1 < s2 → convertList cs s1 = some m1 → convertList cs s2 = some m2 → m1 < m2
  | [], s1, s2, m1, m2, hlt, h1, h2 => by rw [convertList] at h1; simp at h1
  | c :: cs, s1, s2, m1, m2, hlt, h1, h2 => by
    rw [convertList] at h1 h2
    by_cases hs1 : s1 < c.selectableSize
    · by_cases hs2 : s2 < c.selectableSize
      · simp only [hs1, if_true] at h1
        simp only [hs2, if_true] at h2
        exact RNode.convert_strictMono c s1 s2 m1 m2 hlt h1 h2
      · simp only [hs1, if_true] at h1
        simp only [hs2, if_false] at h2
        cases hcl : convertList cs (s2 - c.selectableSize) with
        | none => rw [hcl] at h2; simp at h2
        | some n2 =>
          rw [hcl] at h2
          simp only [Option.map_some', Option.some.injEq] at h2
          have := RNode.convert_lt_modelSize c s1 m1 h1
          omega
    · by_cases hs2 : s2 < c.selectableSize
      · omega
      · simp only [hs1, if_false] at h1
        simp only [hs2, if_false] at h2
        cases hc1 : convertList cs (s1 - c.selectableSize) with
        | none => rw [hc1] at h1; simp at h1
        | some n1 =>
          cases hc2 : convertList cs (s2 - c.selectableSize) with
          | none => rw [hc2] at h2; simp at h2
          | some n2 =>
            rw [hc1] at h1; rw [hc2] at h2
            simp only [Option.map_some', Option.some.injEq] at h1 h2
            have := convertList_strictMono cs (s1 - c.selectableSize)
              (s2 - c.selectableSize) n1 n2 (by omega) hc1 hc2
            omega

end


/-- C1: for every render document tree (a structural `DocRenderNode` over its
children) and every selectable offset `s` in `[0, selectableSize)`,
`convertSelectableOffsetToModelOffset` succeeds, its result lies in
`[1, modelSize - 1)`, and the conversion is strictly increasing in `s`. -/
theorem C1_convert_total_mono_range (cs : List RNode) (s : Nat)
    (hs : s < (RNode.structural cs).selectableSize) :
    ∃ m, (RNode.structural cs).convert s = some m
      ∧ 1 ≤ m ∧ m < (RNode.structural cs).modelSize - 1
      ∧ ∀ s' m', s' < s → (RNode.structural cs).convert s' = some m' → m' < m := by
  rw [RNode.selectableSize] at hs
  obtain ⟨n, hn⟩ := convertList_total cs s hs
  refine ⟨1 + n, ?_, by omega, ?_, ?_⟩
  · rw [RNode.convert, hn]; rfl
  · have := convertList_lt_modelSizeList cs s n hn
    rw [RNode.modelSize]
    omega
  · intro s' m' hlt hconv
    exact RNode.convert_strictMono (RNode.structural cs) s' s m' (1 + n) hlt hconv
      (by rw [RNode.convert, hn]; rfl)

/-- Witness for C1 at a concrete document: a doc with one block holding one
three-character leaf, queried at selectable offset 1. -/
theorem C1_convert_total_mono_range_witness :
    ∃ m, (RNode.structural [RNode.structural [RNode.atomic 3]]).convert 1 = some m
      ∧ 1 ≤ m ∧ m < (RNode.structural [RNode.structural [RNode.atomic 3]]).modelSize - 1
      ∧ ∀ s' m', s' < 1 →
          (RNode.structural [RNode.structural [RNode.atomic 3]]).convert s' = some m' → m' < m :=
  C1_convert_total_mono_range [RNode.structural [RNode.atomic 3]] 1 (by decide)

theorem greedyFill_flatten (limit : Int) : ∀ (ws : List Int) (cur : List Int) (cum : Int),
    (greedyFill limit cur cum ws).flatten = cur ++ ws
  | [], cur, cum => by simp [greedyFill]
  | x :: rest, cur, cum => by
    rw [greedyFill]
    by_cases h : cum + x > limit
    · simp only [h, if_true, List.flatten_cons]
      rw [greedyFill_flatten limit rest [x] x]
      simp
    · simp only [h, if_false]
      rw [greedyFill_flatten limit rest (cur ++ [x]) (cum + x)]
      simp

theorem greedyFill_head_ext (limit : Int) : ∀ (ws : List Int) (cur : List Int) (cum : Int),
    ∃ ext rest, greedyFill limit cur cum ws = (cur ++ ext) :: rest
  | [], cur, cum => ⟨[], [], by simp [greedyFill]⟩
  | x :: rest, cur, cum => by
    rw [greedyFill]
    by_cases h : cum + x > limit
    · exact ⟨[], greedyFill limit [x] x rest, by simp [h]⟩
    · obtain ⟨ext, rest2, hx⟩ := greedyFill_head_ext limit rest (cur ++ [x]) (cum + x)
      exact ⟨[x] ++ ext, rest2, by simp [h, hx]⟩

theorem greedyFill_chain (limit : Int) : ∀ (ws : List Int) (cur : List Int) (cum : Int),
    cum = cur.sum →
    List.Chain' (fun L next => limit < L.sum + next.head?.getD 0) (greedyFill limit cur cum ws)
  | [], cur, cum, hcum => by simp [greedyFill]
  | x :: rest, cur, cum, hcum => by
    rw [greedyFill]
    by_cases h : cum + x > limit
    · simp only [h, if_true]
      rw [List.chain'_cons']
      constructor
      · intro y hy
        obtain ⟨ext, rest2, hx⟩ := greedyFill_head_ext limit rest [x] x
        rw [hx] at hy
        simp only [List.head?_cons, Option.mem_def, Option.some.injEq] at hy
        subst hy
        simp only [List.cons_append, List.head?_cons, Option.getD_some]
        omega
      · exact greedyFill_chain limit rest [x] x (by simp)
    · simp only [h, if_false]
      exact greedyFill_chain limit rest (cur ++ [x]) (cum + x) (by simp [hcum])

theorem greedyFill_mem_ne_nil (limit : Int) : ∀ (ws : List Int) (cur : List Int) (cum : Int),
    cur ≠ [] → ∀ p ∈ greedyFill limit cur cum ws, p ≠ []
  | [], cur, cum, hcur => by simpa [greedyFill] using hcur
  | x :: rest, cur, cum, hcur => by
    rw [greedyFill]
    by_cases h : cum + x > limit
    · simp only [h, if_true]
      intro p hp
      rcases List.mem_cons.mp hp with hp | hp
      · subst hp; exact hcur
      · exact greedyFill_mem_ne_nil limit rest [x] x (by simp) p hp
    · simp only [h, if_false]
      exact greedyFill_mem_ne_nil limit rest (cur ++ [x]) (cum + x) (by simp)

theorem greedyFill_sum_bound (limit : Int) : ∀ (ws : List Int) (cur : List Int) (cum : Int),
    cum = cur.sum → (cur = [] ∨ cur.sum ≤ limit ∨ ∃ h, cur = [h]) →
    ∀ p ∈ greedyFill limit cur cum ws,
      p = [] ∨ p.sum ≤ limit ∨ ∃ h, p = [h] ∧ limit < h
  | [], cur, cum, hcum, hinv => by
    simp only [greedyFill, List.mem_singleton]
    rintro p rfl
    rcases hinv with h | h | ⟨a, rfl⟩
    · exact Or.inl h
    · exact Or.inr (Or.inl h)
    · by_cases ha : limit < a
      · exact Or.inr (Or.inr ⟨a, rfl, ha⟩)
      · exact Or.inr (Or.inl (by simpa using not_lt.mp ha))
  | x :: rest, cur, cum, hcum, hinv => by
    rw [greedyFill]
    by_cases h : cum + x > limit
    · simp only [h, if_true]
      intro p hp
      rcases List.mem_cons.mp hp with hp | hp
      · subst hp
        rcases hinv with h2 | h2 | ⟨a, rfl⟩
        · exact Or.inl h2
        · exact Or.inr (Or.inl h2)
        · by_cases ha : limit < a
          · exact Or.inr (Or.inr ⟨a, rfl, ha⟩)
          · exact Or.inr (Or.inl (by simpa using not_lt.mp ha))
      · exact greedyFill_sum_bound limit rest [x] x (by simp)
          (Or.inr (Or.inr ⟨x, rfl⟩)) p hp
    · simp only [h, if_false]
      exact greedyFill_sum_bound limit rest (cur ++ [x]) (cum + x)
        (by simp [hcum]) (Or.inr (Or.inl (by simp [← hcum]; omega)))

theorem greedyFill_all_fit (limit : Int) : ∀ (ws : List Int) (cur : List Int) (cum : Int),
    cum = cur.sum → (∀ w ∈ ws, 0 ≤ w) → cum + ws.sum ≤ limit →
    greedyFill limit cur cum ws = [cur ++ ws]
  | [], cur, cum, hcum, hnn, hle => by simp [greedyFill]
  | x :: rest, cur, cum, hcum, hnn, hle => by
    have hrest : 0 ≤ rest.sum := List.sum_nonneg (fun w hw => hnn w (List.mem_cons_of_mem _ hw))
    have hx : ¬ (cum + x > limit) := by
      simp only [List.sum_cons] at hle
      omega
    rw [greedyFill]
    simp only [hx, if_false]
    rw [greedyFill_all_fit limit rest (cur ++ [x]) (cum + x) (by simp [hcum])
      (fun w hw => hnn w (List.mem_cons_of_mem _ hw))
      (by simp only [List.sum_cons] at hle; omega)]
    simp

/-- C4: in `buildLineViews`, within a block no box is lost or reordered
(flattening the lines gives back the box sequence), and a new line is started
only when the accumulated width plus the next box's width strictly exceeds
the page content width (pageWidth minus left and right padding): every pair
of consecutive lines satisfies `L.sum + head of next > limit`.  Consequently
(third conjunct) a sequence of boxes whose total width is at most the limit —
in particular one that exactly fills it — stays on a single line. -/
theorem C4_lineBreaking_strict_break (config : DocumentViewConfig) (boxWidths : List Int) :
    (buildLineViewsBlock config boxWidths).flatten = boxWidths ∧
    List.Chain' (fun L next =>
        config.pageWidth - config.pagePaddingLeft - config.pagePaddingRight
          < L.sum + next.head?.getD 0)
      (buildLineViewsBlock config boxWidths) ∧
    ((∀ w ∈ boxWidths, 0 ≤ w) →
      boxWidths.sum ≤ config.pageWidth - config.pagePaddingLeft - config.pagePaddingRight →
      buildLineViewsBlock config boxWidths = [boxWidths]) := by
  refine ⟨?_, ?_, ?_⟩
  · simpa using greedyFill_flatten _ boxWidths [] 0
  · exact greedyFill_chain _ boxWidths [] 0 (by simp)
  · intro hnn hle
    have := greedyFill_all_fit
      (config.pageWidth - config.pagePaddingLeft - config.pagePaddingRight)
      boxWidths [] 0 (by simp) hnn (by simpa using hle)
    simpa [buildLineViewsBlock] using this

/-- Witness for C4 at a concrete block: content width 10, boxes of widths 6
and 4 — the second box exactly fills the remaining width and stays on the
line. -/
theorem C4_lineBreaking_strict_break_witness :
    buildLineViewsBlock ⟨10, 100, 0, 0, 0, 0⟩ [6, 4] = [[6, 4]] :=
  (C4_lineBreaking_strict_break ⟨10, 100, 0, 0, 0, 0⟩ [6, 4]).2.2
    (by decide) (by decide)

/-- C2 counterexample: with page content height 10 and a single line of
height 12, `buildPageViews` produces a first page containing no lines — the
new page is opened before anything was placed on the first — refuting
"every produced page contains at least one line". -/
theorem C2_counterexample_empty_first_page :
    ¬ (∀ p ∈ buildPageViews ⟨100, 10, 0, 0, 0, 0⟩ [12], p ≠ []) := by
  decide

/-- C2 (amended): every page except possibly the first contains at least one
line; the first page is empty exactly when the line sequence is empty or the
first line alone exceeds the page content height.  For every page, the sum
of its lines' heights is at most the page content height (pageHeight minus
top and bottom padding) unless the page holds a single line whose height
exceeds it — an overflowing line is alone on its page. -/
theorem C2_pagination_invariant (config : DocumentViewConfig) (lineHeights : List Int) :
    (∀ p ∈ (buildPageViews config lineHeights).tail, p ≠ []) ∧
    (∀ p ∈ buildPageViews config lineHeights,
        p = [] ∨ p.sum ≤ config.pageHeight - config.pagePaddingTop - config.pagePaddingBottom
          ∨ ∃ h, p = [h]
              ∧ config.pageHeight - config.pagePaddingTop - config.pagePaddingBottom < h) ∧
    ((buildPageViews config lineHeights).head? = some [] ↔
        lineHeights = [] ∨ ∃ h rest, lineHeights = h :: rest
          ∧ config.pageHeight - config.pagePaddingTop - config.pagePaddingBottom < h) := by
  set limit := config.pageHeight - config.pagePaddingTop - config.pagePaddingBottom with hlimit
  refine ⟨?_, ?_, ?_⟩
  · cases lineHeights with
    | nil => simp [buildPageViews, greedyFill]
    | cons x rest =>
      rw [buildPageViews, greedyFill]
      by_cases h : (0 : Int) + x > limit
      · simp only [← hlimit, h, if_true, List.tail_cons]
        exact greedyFill_mem_ne_nil limit rest [x] x (by simp)
      · simp only [← hlimit, h, if_false, List.nil_append]
        intro p hp
        exact greedyFill_mem_ne_nil limit rest [x] (0 + x) (by simp) p
          (List.mem_of_mem_tail hp)
  · exact greedyFill_sum_bound limit lineHeights [] 0 (by simp) (Or.inl rfl)
  · cases lineHeights with
    | nil =>
      simp [buildPageViews, greedyFill, ← hlimit]
    | cons x rest =>
      rw [buildPageViews, greedyFill]
      by_cases h : (0 : Int) + x > limit
      · simp only [← hlimit, h, if_true, List.head?_cons]
        constructor
        · intro _
          exact Or.inr ⟨x, rest, rfl, by omega⟩
        · intro _; trivial
      · simp only [← hlimit, h, if_false, List.nil_append]
        obtain ⟨ext, rest2, hx⟩ := greedyFill_head_ext limit rest [x] (0 + x)
        rw [hx]
        simp only [List.cons_append, List.head?_cons, Option.some.injEq]
        constructor
        · intro hcontra
          exact absurd hcontra (by simp)
        · rintro (hcontra | ⟨h2, rest3, heq, hlt⟩)
          · exact absurd hcontra (by simp)
          · rw [List.cons.injEq] at heq
            omega

/-- Witness for C2 (amended): content height 10, lines of heights 5 and 12 —
the second page `[12]` is nonempty, and with the single overflowing line 12
the first page is empty. -/
theorem C2_pagination_invariant_witness :
    ([(12 : Int)] ≠ []) ∧ (buildPageViews ⟨100, 10, 0, 0, 0, 0⟩ [12]).head? = some [] :=
  ⟨(C2_pagination_invariant ⟨100, 10, 0, 0, 0, 0⟩ [5, 12]).1 [12] (by decide),
   (C2_pagination_invariant ⟨100, 10, 0, 0, 0, 0⟩ [12]).2.2.mpr
     (Or.inr ⟨12, [], rfl, by decide⟩)⟩

/-- C7: against a non-empty selection (anchor ≠ head), the directional move
commands collapse the range to its boundary in the direction of travel:
`MoveBackwardCommandHandler` to `min(anchor, head)` and
`MoveForwardCommandHandler` to `max(anchor, head)`, not one step beyond the
existing head. -/
theorem C7_range_collapse (cursor : Cursor) (h : cursor.anchor ≠ cursor.head) :
    moveBackwardNewPosition cursor = min cursor.anchor cursor.head ∧
    moveForwardNewPosition cursor = max cursor.anchor cursor.head := by
  simp [moveBackwardNewPosition, moveForwardNewPosition, h]

/-- Witness for C7 at the selection anchor 2, head 5. -/
theorem C7_range_collapse_witness :
    moveBackwardNewPosition ⟨2, 5, 0⟩ = min 2 5 ∧
    moveForwardNewPosition ⟨2, 5, 0⟩ = max 2 5 :=
  C7_range_collapse ⟨2, 5, 0⟩ (by decide)

/-- C3, evaluation at the failing input: `MoveBackwardCommandHandler` issued
on a caret at offset 0 computes the unclamped new position `-1` — outside the
valid selectable range — and submits it to the transformation, whereas the
sibling `MoveHeadBackwardCommandHandler` clamps its new head to 0 as the
claim requires of every navigation command. -/
theorem C3_moveBackward_at_zero_unclamped :
    moveBackwardNewPosition ⟨0, 0, 0⟩ = -1 ∧
    moveBackwardNewPosition ⟨0, 0, 0⟩ < 0 ∧
    moveHeadBackwardNewHead ⟨0, 0, 0⟩ = 0 := by
  decide

/- Out-of-range conversion: the walk exhausts its children and throws. -/
mutual

theorem RNode.convert_out_of_range : ∀ (t : RNode) (s : Nat),
    t.selectableSize ≤ s → t.convert s = none
  | .atomic len, s, h => by
    rw [RNode.selectableSize] at h
    rw [RNode.convert]
    simp [Nat.not_lt.mpr h]
  | .structural cs, s, h => by
    rw [RNode.selectableSize] at h
    rw [RNode.convert, convertList_out_of_range cs s h]
    rfl

theorem convertList_out_of_range : ∀ (cs : List RNode) (s : Nat),
    selectableSizeList cs ≤ s → convertList cs s = none
  | [], s, h => by rw [convertList]
  | c :: cs, s, h => by
    rw [selectableSizeList_cons] at h
    rw [convertList]
    have hs : ¬ s < c.selectableSize := by omega
    simp only [hs, if_false]
    rw [convertList_out_of_range cs (s - c.selectableSize) (by omega)]
    rfl

end

/-- C8: offsets at or beyond the valid span raise `OutOfRange` rather than
being clamped: `convertSelectableOffsetToModelOffset` throws for every
selectable offset at or beyond the node's cumulative selectable size, and
`getScreenPositions` throws when `from` or `to` is at or beyond the document
size. -/
theorem C8_out_of_range_throws :
    (∀ (t : RNode) (s : Nat), t.selectableSize ≤ s → t.convert s = none) ∧
    (∀ (pageSizes : List Int) (frm toPos : Int),
      pageSizes.sum ≤ frm ∨ pageSizes.sum ≤ toPos →
      getScreenPositions pageSizes frm toPos = none) := by
  refine ⟨RNode.convert_out_of_range, ?_⟩
  intro pageSizes frm toPos h
  rw [getScreenPositions, if_pos]
  exact h

/-- Witness for C8: a doc with a three-character leaf queried at offset 3,
and a one-page document of size 3 queried from 3. -/
theorem C8_out_of_range_throws_witness :
    (RNode.structural [RNode.atomic 3]).convert 3 = none ∧
    getScreenPositions [3] 3 0 = none :=
  ⟨C8_out_of_range_throws.1 (RNode.structural [RNode.atomic 3]) 3 (by decide),
   C8_out_of_range_throws.2 [3] 3 0 (Or.inl (by decide))⟩

theorem DocRenderNodeState.init_cacheOk : DocRenderNodeState.init.CacheOk := by
  constructor <;> simp [DocRenderNodeState.init, DocRenderNodeState.CacheOk]

theorem DocRenderNodeState.clearCache_cacheOk (st : DocRenderNodeState) :
    st.clearCache.CacheOk := by
  constructor <;> simp [DocRenderNodeState.clearCache]

theorem DocRenderNodeState.getSelectableSize_snd_cacheOk (st : DocRenderNodeState)
    (hok : st.CacheOk) : st.getSelectableSize.2.CacheOk := by
  rcases hok with ⟨h1, h2⟩
  cases hc : st.selectableSizeCache with
  | some v =>
    have heq : st.getSelectableSize = (v, st) := by
      simp [DocRenderNodeState.getSelectableSize, hc]
    rw [heq]
    exact ⟨h1, h2⟩
  | none =>
    have heq : st.getSelectableSize
        = ((st.children.map (·.selectableSize)).sum,
           { st with selectableSizeCache := some (st.children.map (·.selectableSize)).sum }) := by
      simp [DocRenderNodeState.getSelectableSize, hc]
    rw [heq]
    refine ⟨?_, ?_⟩
    · intro w hw
      simp only [Option.mem_def, Option.some.injEq] at hw
      simp [← hw]
    · intro w hw
      exact h2 w hw

theorem DocRenderNodeState.getModelSize_snd_cacheOk (st : DocRenderNodeState)
    (hok : st.CacheOk) : st.getModelSize.2.CacheOk := by
  rcases hok with ⟨h1, h2⟩
  cases hc : st.modelSizeCache with
  | some v =>
    have heq : st.getModelSize = (v, st) := by
      simp [DocRenderNodeState.getModelSize, hc]
    rw [heq]
    exact ⟨h1, h2⟩
  | none =>
    have heq : st.getModelSize
        = (2 + (st.children.map (·.modelSize)).sum,
           { st with modelSizeCache := some (2 + (st.children.map (·.modelSize)).sum) }) := by
      simp [DocRenderNodeState.getModelSize, hc]
    rw [heq]
    refine ⟨?_, ?_⟩
    · intro w hw
      exact h1 w hw
    · intro w hw
      simp only [Option.mem_def, Option.some.injEq] at hw
      simp [← hw]

theorem DocRenderNodeState.getSelectableSize_fst (st : DocRenderNodeState)
    (hok : st.CacheOk) :
    st.getSelectableSize.1 = (st.children.map (·.selectableSize)).sum := by
  cases hc : st.selectableSizeCache with
  | some v =>
    have := hok.1 v (by rw [Option.mem_def, hc])
    simp [DocRenderNodeState.getSelectableSize, hc, this]
  | none =>
    simp [DocRenderNodeState.getSelectableSize, hc]

theorem DocRenderNodeState.getModelSize_fst (st : DocRenderNodeState)
    (hok : st.CacheOk) :
    st.getModelSize.1 = 2 + (st.children.map (·.modelSize)).sum := by
  cases hc : st.modelSizeCache with
  | some v =>
    have := hok.2 v (by rw [Option.mem_def, hc])
    simp [DocRenderNodeState.getModelSize, hc, this]
  | none =>
    simp [DocRenderNodeState.getModelSize, hc]

theorem DocRenderNodeState.applyOp_cacheOk (st : DocRenderNodeState)
    (op : DocRenderNodeOp) (st2 : DocRenderNodeState)
    (h : st.applyOp op = some st2) (hok : st.CacheOk) : st2.CacheOk := by
  cases op with
  | insertChild child offset =>
    cases offset with
    | none =>
      simp only [DocRenderNodeState.applyOp, DocRenderNodeState.insertChild,
        Option.some.injEq] at h
      subst h
      exact DocRenderNodeState.clearCache_cacheOk _
    | some o =>
      simp only [DocRenderNodeState.applyOp, DocRenderNodeState.insertChild,
        Option.some.injEq] at h
      subst h
      exact DocRenderNodeState.clearCache_cacheOk _
  | deleteChild child =>
    simp only [DocRenderNodeState.applyOp, DocRenderNodeState.deleteChild] at h
    by_cases hm : child ∈ st.children
    · simp only [hm, if_true, Option.some.injEq] at h
      subst h
      exact DocRenderNodeState.clearCache_cacheOk _
    · simp [hm] at h
  | onModelUpdated =>
    simp only [DocRenderNodeState.applyOp, DocRenderNodeState.onModelUpdated,
      Option.some.injEq] at h
    subst h
    exact DocRenderNodeState.clearCache_cacheOk _
  | getSelectableSize =>
    simp only [DocRenderNodeState.applyOp, Option.some.injEq] at h
    subst h
    exact DocRenderNodeState.getSelectableSize_snd_cacheOk st hok
  | getModelSize =>
    simp only [DocRenderNodeState.applyOp, Option.some.injEq] at h
    subst h
    exact DocRenderNodeState.getModelSize_snd_cacheOk st hok

theorem DocRenderNodeState.applyOps_cacheOk : ∀ (ops : List DocRenderNodeOp)
    (st st2 : DocRenderNodeState), st.CacheOk → st.applyOps ops = some st2 →
    st2.CacheOk
  | [], st, st2, hok, h => by
    rw [DocRenderNodeState.applyOps] at h
    injection h with h
    subst h
    exact hok
  | op :: ops, st, st2, hok, h => by
    rw [DocRenderNodeState.applyOps] at h
    cases hop : st.applyOp op with
    | none => rw [hop] at h; simp at h
    | some st1 =>
      rw [hop] at h
      exact DocRenderNodeState.applyOps_cacheOk ops st1 st2
        (DocRenderNodeState.applyOp_cacheOk st op st1 hop hok) h

/-- C9: after every sequence of `insertChild` / `deleteChild` /
`onModelUpdated` operations (interleaved with reads, each of which clears or
fills the caches as the source does), `getSelectableSize` returns the sum of
the children's selectable sizes and `getModelSize` returns 2 plus the sum of
the children's model sizes. -/
theorem C9_cached_sizes_correct (ops : List DocRenderNodeOp)
    (st : DocRenderNodeState) (h : DocRenderNodeState.init.applyOps ops = some st) :
    st.getSelectableSize.1 = (st.children.map (·.selectableSize)).sum ∧
    st.getModelSize.1 = 2 + (st.children.map (·.modelSize)).sum := by
  have hok := DocRenderNodeState.applyOps_cacheOk ops _ st
    DocRenderNodeState.init_cacheOk h
  exact ⟨DocRenderNodeState.getSelectableSize_fst st hok,
    DocRenderNodeState.getModelSize_fst st hok⟩

/-- Witness for C9 after inserting a child, reading the selectable size
(filling the cache) and inserting another child at offset 0. -/
theorem C9_cached_sizes_correct_witness :
    (DocRenderNodeState.getSelectableSize ⟨[⟨2, 4⟩, ⟨3, 5⟩], none, none⟩).1
        = (([⟨2, 4⟩, ⟨3, 5⟩] : List BlockRenderChild).map (·.selectableSize)).sum ∧
    (DocRenderNodeState.getModelSize ⟨[⟨2, 4⟩, ⟨3, 5⟩], none, none⟩).1
        = 2 + (([⟨2, 4⟩, ⟨3, 5⟩] : List BlockRenderChild).map (·.modelSize)).sum :=
  C9_cached_sizes_correct
    [.insertChild ⟨3, 5⟩ none, .getSelectableSize, .insertChild ⟨2, 4⟩ (some 0)]
    ⟨[⟨2, 4⟩, ⟨3, 5⟩], none, none⟩ (by decide)

/-- C10: `DocView.insertChild` appends the child to the end of the internal
children list regardless of the offset (so `getChildren` after inserting at
an offset below the child count does not reflect the offset-prescribed
order); only the DOM insertion consults the offset, and an offset strictly
greater than the DOM child count throws an out-of-range error. -/
theorem C10_insertChild_appends (st : DocViewState) (child : Nat) (offset : Nat) :
    (st.domChildNodes.length < offset → st.insertChild child offset = none) ∧
    (offset ≤ st.domChildNodes.length →
      ∃ st2, st.insertChild child offset = some st2 ∧
        st2.getChildren = st.getChildren ++ [child]) := by
  constructor
  · intro h
    simp [DocViewState.insertChild, h]
  · intro h
    have h2 : ¬ (offset > st.domChildNodes.length) := not_lt.mpr h
    simp only [DocViewState.insertChild, h2, if_false]
    by_cases he : offset = st.domChildNodes.length
    · simp only [he, if_true]
      exact ⟨_, rfl, rfl⟩
    · simp only [he, if_false]
      exact ⟨_, rfl, rfl⟩

/-- Witness for C10: inserting page 9 at offset 0 into a view whose children
are `[1, 2]` leaves `getChildren` as `[1, 2, 9]`, not `[9, 1, 2]`. -/
theorem C10_insertChild_appends_witness :
    (DocViewState.insertChild ⟨[1, 2], [1, 2]⟩ 9 0).map DocViewState.getChildren
      = some [1, 2, 9] := by
  obtain ⟨st2, h1, h2⟩ := (C10_insertChild_appends ⟨[1, 2], [1, 2]⟩ 9 0).2 (by decide)
  rw [h1, Option.map_some', h2]
  rfl

theorem mem_of_getLast?_eq_some {α : Type} {l : List α} {a : α}
    (h : l.getLast? = some a) : a ∈ l := by
  obtain ⟨hne, heq⟩ := List.mem_getLast?_eq_getLast (Option.mem_def.mpr h)
  rw [heq]
  exact List.getLast_mem hne

theorem mem_of_head?_eq_some {α : Type} {l : List α} {a : α}
    (h : l.head? = some a) : a ∈ l := by
  cases l with
  | nil => simp at h
  | cons b t =>
    simp only [List.head?_cons, Option.some.injEq] at h
    subst h
    exact List.mem_cons_self b t

theorem natSum_zero_all : ∀ (l : List Nat), l.sum = 0 → ∀ w ∈ l, w = 0
  | [], _, _, hw => by cases hw
  | a :: t, h, w, hw => by
    simp only [List.sum_cons] at h
    rcases List.mem_cons.mp hw with rfl | hw
    · omega
    · exact natSum_zero_all t (by omega) w hw

theorem gwspStepBack_at_zero (prevPage : Option PageV) (prevLine : Option LineV)
    (prevWord : Option Nat) : gwspStepBack prevPage prevLine prevWord 0 = 0 := by
  rw [gwspStepBack.eq_def]
  cases prevWord with
  | some pw => simp
  | none =>
    cases prevLine with
    | some pl => cases hgl : pl.getLast? <;> simp [hgl]
    | none =>
      cases prevPage with
      | some pp =>
        cases hgp : pp.getLast? with
        | some pl2 => cases hgl2 : pl2.getLast? <;> simp [hgp, hgl2]
        | none => simp [hgp]
      | none => simp

/- At the document's first boundary (currentPosition = position = 0), the
forward word search returns 0 whenever the remaining words have positive
total size. -/
theorem gwspWords_at_zero : ∀ (ws : List Nat) (prevWord : Option Nat)
    (prevLine : Option LineV) (prevPage : Option PageV), 0 < ws.sum →
    gwspWords prevPage prevLine prevWord ws 0 0 = some 0
  | [], _, _, _, hs => by simp at hs
  | w :: rest, prevWord, prevLine, prevPage, hs => by
    rw [gwspWords]
    by_cases hw0 : w = 0
    · subst hw0
      rw [if_pos (by omega)]
      exact gwspWords_at_zero rest (some 0) prevLine prevPage (by simpa using hs)
    · rw [if_neg (by omega), if_pos rfl, gwspStepBack_at_zero]

theorem gwspLines_at_zero : ∀ (ls : List LineV) (prevLine : Option LineV)
    (prevPage : Option PageV), 0 < (ls.map lineViewSize).sum →
    gwspLines prevPage prevLine ls 0 0 = some 0
  | [], _, _, hs => by simp at hs
  | l :: rest, prevLine, prevPage, hs => by
    rw [gwspLines]
    by_cases hl0 : lineViewSize l = 0
    · rw [if_pos (by omega)]
      simpa [hl0] using gwspLines_at_zero rest (some l) prevPage (by simpa [hl0] using hs)
    · rw [if_neg (by omega),
        gwspWords_at_zero l none prevLine prevPage (Nat.pos_of_ne_zero hl0)]

theorem gwspPages_at_zero : ∀ (ps : List PageV) (prevPage : Option PageV),
    0 < (ps.map pageViewSize).sum →
    gwspPages prevPage ps 0 0 = some 0
  | [], _, hs => by simp at hs
  | pg :: rest, prevPage, hs => by
    rw [gwspPages]
    by_cases hp0 : pageViewSize pg = 0
    · rw [if_pos (by omega)]
      simpa [hp0] using gwspPages_at_zero rest (some pg) (by simpa [hp0] using hs)
    · rw [if_neg (by omega),
        gwspLines_at_zero pg none prevPage (Nat.pos_of_ne_zero hp0)]

theorem gwepStepForward_at_end (nextPage : Option PageV) (nextLine : Option LineV)
    (nextWord : Option Nat) (cur : Int)
    (hw : ∀ w ∈ nextWord, w = 0) (hl : ∀ l ∈ nextLine, lineViewSize l = 0)
    (hp : ∀ pg ∈ nextPage, pageViewSize pg = 0) :
    gwepStepForward nextPage nextLine nextWord cur = cur := by
  rw [gwepStepForward.eq_def]
  cases nextWord with
  | some nw =>
    have hnw : nw = 0 := hw nw (by simp)
    simp [hnw]
  | none =>
    cases nextLine with
    | some nl =>
      cases hgl : nl.head? with
      | some nw =>
        have hnlz : lineViewSize nl = 0 := hl nl (by simp)
        have hnw : nw = 0 := natSum_zero_all nl hnlz nw (mem_of_head?_eq_some hgl)
        simp [hgl, hnw]
      | none => simp [hgl]
    | none =>
      cases nextPage with
      | some np =>
        cases hgp : np.head? with
        | some nl =>
          have hnpz : pageViewSize np = 0 := hp np (by simp)
          have hnlz : lineViewSize nl = 0 :=
            natSum_zero_all (np.map lineViewSize) hnpz _
              (List.mem_map_of_mem _ (mem_of_head?_eq_some hgp))
          cases hgl2 : nl.head? with
          | some nw =>
            have hnw : nw = 0 := natSum_zero_all nl hnlz nw (mem_of_head?_eq_some hgl2)
            simp [hgp, hgl2, hnw]
          | none => simp [hgp, hgl2]
        | none => simp [hgp]
      | none => simp

/- At the document's last boundary (currentPosition = position), the
backward word search stays put whenever the remaining (reversed) words have
positive total size and everything adjacent so far has size 0. -/
theorem gwepWords_at_end : ∀ (rws : List Nat) (nextWord : Option Nat)
    (nextLine : Option LineV) (nextPage : Option PageV) (cur : Int),
    (∀ w ∈ nextWord, w = 0) → (∀ l ∈ nextLine, lineViewSize l = 0) →
    (∀ pg ∈ nextPage, pageViewSize pg = 0) → 0 < rws.sum →
    gwepWords nextPage nextLine nextWord rws cur cur = some cur
  | [], _, _, _, _, _, _, _, hs => by simp at hs
  | w :: rest, nextWord, nextLine, nextPage, cur, hw, hl, hp, hs => by
    rw [gwepWords]
    by_cases hw0 : w = 0
    · subst hw0
      rw [if_pos (by simp)]
      have := gwepWords_at_end rest (some 0) nextLine nextPage cur (by simp) hl hp
        (by simpa using hs)
      simpa using this
    · have hwpos : 0 < w := Nat.pos_of_ne_zero hw0
      rw [if_neg (by omega), if_pos rfl,
        gwepStepForward_at_end nextPage nextLine nextWord cur hw hl hp]

theorem gwepLines_at_end : ∀ (rls : List LineV) (nextLine : Option LineV)
    (nextPage : Option PageV) (cur : Int),
    (∀ l ∈ nextLine, lineViewSize l = 0) → (∀ pg ∈ nextPage, pageViewSize pg = 0) →
    0 < (rls.map lineViewSize).sum →
    gwepLines nextPage nextLine rls cur cur = some cur
  | [], _, _, _, _, _, hs => by simp at hs
  | l :: rest, nextLine, nextPage, cur, hl, hp, hs => by
    rw [gwepLines]
    by_cases hl0 : lineViewSize l = 0
    · rw [if_pos (by simp [hl0])]
      have := gwepLines_at_end rest (some l) nextPage cur
        (by intro l2 hl2
            simp only [Option.mem_def, Option.some.injEq] at hl2
            subst hl2
            exact hl0)
        hp (by simpa [hl0] using hs)
      simpa [hl0] using this
    · have hlpos : 0 < lineViewSize l := Nat.pos_of_ne_zero hl0
      rw [if_neg (by omega),
        gwepWords_at_end l.reverse none nextLine nextPage cur (by simp) hl hp
          (by rw [List.sum_reverse]; exact hlpos)]

theorem gwepPages_at_end : ∀ (rps : List PageV) (nextPage : Option PageV) (cur : Int),
    (∀ pg ∈ nextPage, pageViewSize pg = 0) → 0 < (rps.map pageViewSize).sum →
    gwepPages nextPage rps cur cur = some cur
  | [], _, _, _, hs => by simp at hs
  | pg :: rest, nextPage, cur, hp, hs => by
    rw [gwepPages]
    by_cases hp0 : pageViewSize pg = 0
    · rw [if_pos (by simp [hp0])]
      have := gwepPages_at_end rest (some pg) cur
        (by intro pg2 hpg2
            simp only [Option.mem_def, Option.some.injEq] at hpg2
            subst hpg2
            exact hp0)
        (by simpa [hp0] using hs)
      simpa [hp0] using this
    · have hppos : 0 < pageViewSize pg := Nat.pos_of_ne_zero hp0
      rw [if_neg (by omega),
        gwepLines_at_end pg.reverse none nextPage cur (by simp) hp
          (by rw [List.map_reverse, List.sum_reverse]; exact hppos)]

/-- C6: boundary searches degrade to "no movement" at the document's extreme
ends and do not raise: `atPreviousWord` at the first word's start (no
previous cross-parent sibling) and `atNextWord` at the last word's final
offset (no next cross-parent sibling) return the query position, and
`getWordStartPosition` at offset 0 / `getWordEndPosition` at the last offset
of a nonempty document return the query position. -/
theorem C6_document_edge_noop :
    (∀ (words : List WordNode) (p : Nat),
       describePositionAtWord words p = some (0, 0) →
       atPreviousWord words p = some p) ∧
    (∀ (words : List WordNode) (p idx : Nat) (W : WordNode),
       describePositionAtWord words p = some (idx, W.size - 1) →
       words[idx]? = some W → words[idx + 1]? = none →
       atNextWord words p = some p) ∧
    (∀ pages : List PageV, 0 < documentSize pages →
       getWordStartPosition pages 0 = some 0) ∧
    (∀ pages : List PageV, 0 < documentSize pages →
       getWordEndPosition pages ((documentSize pages : Int) - 1)
         = some ((documentSize pages : Int) - 1)) := by
  refine ⟨?_, ?_, ?_, ?_⟩
  · intro words p hloc
    simp [atPreviousWord, hloc]
  · intro words p idx W hloc hW hnext
    simp [atNextWord, hloc, hW, hnext]
  · intro pages hpos
    rw [getWordStartPosition]
    exact gwspPages_at_zero pages none (by simpa [documentSize] using hpos)
  · intro pages hpos
    rw [getWordEndPosition]
    exact gwepPages_at_end pages.reverse none _ (by simp)
      (by rw [List.map_reverse, List.sum_reverse]; simpa [documentSize] using hpos)

/-- Witness for C6: a one-page, one-line document with a single word of size
3 (queried at both ends) and word sequences hitting the first/last
cross-parent boundary. -/
theorem C6_document_edge_noop_witness :
    atPreviousWord [⟨3, 3⟩] 0 = some 0 ∧
    atNextWord [⟨3, 2⟩] 2 = some 2 ∧
    getWordStartPosition [[[2]]] 0 = some 0 ∧
    getWordEndPosition [[[2]]] ((documentSize [[[2]]] : Int) - 1)
      = some ((documentSize [[[2]]] : Int) - 1) :=
  ⟨C6_document_edge_noop.1 [⟨3, 3⟩] 0 (by decide),
   C6_document_edge_noop.2.1 [⟨3, 2⟩] 2 0 ⟨3, 2⟩ (by decide) (by decide) (by decide),
   C6_document_edge_noop.2.2.1 [[[2]]] (by decide),
   C6_document_edge_noop.2.2.2 [[[2]]] (by decide)⟩

theorem locateWordAux_spec : ∀ (ws : List WordNode) (i p j off : Nat),
    locateWordAux ws i p = some (j, off) →
    ∃ k W, j = i + k ∧ ws[k]? = some W ∧ off < W.size ∧
      p = ((ws.take k).map (·.size)).sum + off
  | [], i, p, j, off, h => by rw [locateWordAux] at h; simp at h
  | w :: rest, i, p, j, off, h => by
    rw [locateWordAux] at h
    by_cases hp : p < w.size
    · rw [if_pos hp] at h
      simp only [Option.some.injEq, Prod.mk.injEq] at h
      obtain ⟨rfl, rfl⟩ := h
      exact ⟨0, w, by omega, by simp, hp, by simp⟩
    · rw [if_neg hp] at h
      obtain ⟨k, W, hj, hW, hoff, hsum⟩ := locateWordAux_spec rest (i + 1) (p - w.size) j off h
      refine ⟨k + 1, W, by omega, by simpa using hW, hoff, ?_⟩
      have htake : (((w :: rest).take (k + 1)).map (·.size)).sum
          = w.size + ((rest.take k).map (·.size)).sum := by simp
      rw [htake]
      omega

theorem locateWordAux_at_prefix : ∀ (ws : List WordNode) (k : Nat) (W : WordNode) (i c : Nat),
    ws[k]? = some W → c < W.size →
    locateWordAux ws i (((ws.take k).map (·.size)).sum + c) = some (i + k, c)
  | [], k, W, i, c, hW, hc => by simp at hW
  | w :: rest, 0, W, i, c, hW, hc => by
    simp only [List.getElem?_cons_zero, Option.some.injEq] at hW
    subst hW
    rw [locateWordAux, if_pos (by simpa using hc)]
    simp
  | w :: rest, k + 1, W, i, c, hW, hc => by
    simp only [List.getElem?_cons_succ] at hW
    rw [locateWordAux]
    have htake : ((((w :: rest).take (k + 1)).map (·.size)).sum + c)
        = w.size + (((rest.take k).map (·.size)).sum + c) := by
      simp
      omega
    rw [htake, if_neg (by omega)]
    have h3 : w.size + (((rest.take k).map (·.size)).sum + c) - w.size
        = ((rest.take k).map (·.size)).sum + c := by omega
    rw [h3]
    have h2 := locateWordAux_at_prefix rest k W (i + 1) c hW hc
    have heq : i + 1 + k = i + (k + 1) := by omega
    rw [← heq]
    exact h2

theorem locateLineAux_spec : ∀ (ls : List LineNode) (i p j off : Nat),
    locateLineAux ls i p = some (j, off) →
    ∃ k L, j = i + k ∧ ls[k]? = some L ∧ off < L.size ∧
      p = ((ls.take k).map (·.size)).sum + off
  | [], i, p, j, off, h => by rw [locateLineAux] at h; simp at h
  | l :: rest, i, p, j, off, h => by
    rw [locateLineAux] at h
    by_cases hp : p < l.size
    · rw [if_pos hp] at h
      simp only [Option.some.injEq, Prod.mk.injEq] at h
      obtain ⟨rfl, rfl⟩ := h
      exact ⟨0, l, by omega, by simp, hp, by simp⟩
    · rw [if_neg hp] at h
      obtain ⟨k, L, hj, hL, hoff, hsum⟩ := locateLineAux_spec rest (i + 1) (p - l.size) j off h
      refine ⟨k + 1, L, by omega, by simpa using hL, hoff, ?_⟩
      have htake : (((l :: rest).take (k + 1)).map (·.size)).sum
          = l.size + ((rest.take k).map (·.size)).sum := by simp
      rw [htake]
      omega

theorem locateLineAux_at_prefix : ∀ (ls : List LineNode) (k : Nat) (L : LineNode) (i c : Nat),
    ls[k]? = some L → c < L.size →
    locateLineAux ls i (((ls.take k).map (·.size)).sum + c) = some (i + k, c)
  | [], k, L, i, c, hL, hc => by simp at hL
  | l :: rest, 0, L, i, c, hL, hc => by
    simp only [List.getElem?_cons_zero, Option.some.injEq] at hL
    subst hL
    rw [locateLineAux, if_pos (by simpa using hc)]
    simp
  | l :: rest, k + 1, L, i, c, hL, hc => by
    simp only [List.getElem?_cons_succ] at hL
    rw [locateLineAux]
    have htake : ((((l :: rest).take (k + 1)).map (·.size)).sum + c)
        = l.size + (((rest.take k).map (·.size)).sum + c) := by
      simp
      omega
    rw [htake, if_neg (by omega)]
    have h3 : l.size + (((rest.take k).map (·.size)).sum + c) - l.size
        = ((rest.take k).map (·.size)).sum + c := by omega
    rw [h3]
    have h2 := locateLineAux_at_prefix rest k L (i + 1) c hL hc
    have heq : i + 1 + k = i + (k + 1) := by omega
    rw [← heq]
    exact h2

/-- C5 counterexample: in the layout with words "Hello " (size 6, trimmed 5)
and "world" (size 5), position 2 — not the document's first word-start —
round-trips to `atNextWord (atPreviousWord 2) = 5 ≠ 2`: `atNextWord` lands on
the word's trimmed end, not back at the query position. -/
theorem C5_counterexample_word_roundtrip :
    (atPreviousWord [⟨6, 5⟩, ⟨5, 5⟩] 2).bind (atNextWord [⟨6, 5⟩, ⟨5, 5⟩]) = some 5 ∧
    (atPreviousWord [⟨6, 5⟩, ⟨5, 5⟩] 2).bind (atNextWord [⟨6, 5⟩, ⟨5, 5⟩]) ≠ some 2 := by
  decide

/-- C5 (amended): the boundary round-trips hold under the side conditions the
code imposes.  Word: when `p` sits exactly on a word start (not the
document's first) and the previous word carries no trailing whitespace
(`trimmedSize = size`) and has size ≥ 2, then
`atNextWord (atPreviousWord p) = p`.  Line: when `p`'s line has a previous
cross-parent sibling whose `leftLock` coordinate resolves within its span,
and `p`'s own line resolves `leftLock` back to exactly `p`'s line offset,
then `atNextLine (atPreviousLine p) = p`. -/
theorem C5_roundtrip_amended :
    (∀ (words : List WordNode) (p j : Nat) (V : WordNode),
       describePositionAtWord words p = some (j + 1, 0) →
       words[j]? = some V → V.trimmedSize = V.size → 2 ≤ V.size →
       (atPreviousWord words p).bind (atNextWord words) = some p) ∧
    (∀ (lines : List LineNode) (p linePos i : Nat) (L Lcur : LineNode) (leftLock : Int),
       describePositionAtLine lines p = some (i + 1, linePos) →
       lines[i]? = some L → lines[i + 1]? = some Lcur →
       L.convertCoordinatesToPosition leftLock < L.size →
       Lcur.convertCoordinatesToPosition leftLock = linePos →
       (atPreviousLine lines p leftLock).bind (fun q => atNextLine lines q leftLock)
         = some p) := by
  constructor
  · intro words p j V hloc hV htrim hsize
    obtain ⟨k, W, hk, hW, hWoff, hsum⟩ := locateWordAux_spec words 0 p (j + 1) 0 hloc
    have hk2 : k = j + 1 := by omega
    subst hk2
    have htake : ((words.take (j + 1)).map (·.size)).sum
        = ((words.take j).map (·.size)).sum + V.size := by
      rw [List.take_succ]
      simp [hV]
    have hp : p = ((words.take j).map (·.size)).sum + V.size := by omega
    have hprev : atPreviousWord words p = some (p - V.size) := by
      simp [atPreviousWord, hloc, hV]
    have hq : p - V.size = ((words.take j).map (·.size)).sum := by omega
    have hlocq : describePositionAtWord words (p - V.size) = some (j, 0) := by
      rw [describePositionAtWord, hq]
      have h2 := locateWordAux_at_prefix words j V 0 0 hV (by omega)
      simpa using h2
    have hnext : atNextWord words (p - V.size) = some p := by
      have hlt : 0 < V.size - 1 := by omega
      simp only [atNextWord, hlocq, hV]
      rw [if_pos hlt, htrim]
      congr 1
      omega
    rw [hprev]
    simpa using hnext
  · intro lines p linePos i L Lcur leftLock hloc hL hLc hcp hcur
    obtain ⟨k, W, hk, hW, hWoff, hsum⟩ := locateLineAux_spec lines 0 p (i + 1) linePos hloc
    have hk2 : k = i + 1 := by omega
    subst hk2
    have htake : ((lines.take (i + 1)).map (·.size)).sum
        = ((lines.take i).map (·.size)).sum + L.size := by
      rw [List.take_succ]
      simp [hL]
    have hp : p = ((lines.take i).map (·.size)).sum + L.size + linePos := by omega
    have hprev : atPreviousLine lines p leftLock
        = some (p - linePos - L.size + L.convertCoordinatesToPosition leftLock) := by
      simp [atPreviousLine, hloc, hL]
    have hq : p - linePos - L.size + L.convertCoordinatesToPosition leftLock
        = ((lines.take i).map (·.size)).sum + L.convertCoordinatesToPosition leftLock := by
      omega
    have hlocq : describePositionAtLine lines
        (p - linePos - L.size + L.convertCoordinatesToPosition leftLock)
        = some (i, L.convertCoordinatesToPosition leftLock) := by
      rw [describePositionAtLine, hq]
      have h2 := locateLineAux_at_prefix lines i L 0
        (L.convertCoordinatesToPosition leftLock) hL hcp
      simpa using h2
    have hnext : atNextLine lines
        (p - linePos - L.size + L.convertCoordinatesToPosition leftLock) leftLock
        = some p := by
      simp only [atNextLine, hlocq, hL, hLc]
      rw [hcur]
      congr 1
      omega
    rw [hprev]
    simpa using hnext

/-- Witness for C5 (amended) at a word start preceded by a fully-trimmed word
and at a position on the second of two lines with matching leftLock
resolution. -/
theorem C5_roundtrip_amended_witness :
    (atPreviousWord [⟨6, 6⟩, ⟨5, 5⟩] 6).bind (atNextWord [⟨6, 6⟩, ⟨5, 5⟩]) = some 6 ∧
    (atPreviousLine [⟨5, fun _ => 2⟩, ⟨5, fun _ => 3⟩] 8 0).bind
      (fun q => atNextLine [⟨5, fun _ => 2⟩, ⟨5, fun _ => 3⟩] q 0) = some 8 :=
  ⟨C5_roundtrip_amended.1 [⟨6, 6⟩, ⟨5, 5⟩] 6 0 ⟨6, 6⟩ (by decide) (by decide) rfl
     (by decide),
   C5_roundtrip_amended.2 [⟨5, fun _ => 2⟩, ⟨5, fun _ => 3⟩] 8 3 0
     ⟨5, fun _ => 2⟩ ⟨5, fun _ => 3⟩ 0 rfl rfl rfl (by decide) rfl⟩

end Taleweaver
